import Mathlib

set_option maxHeartbeats 1000000

/-!
Shallow embedding of the copilot-sdk TypeScript client library.

The in-memory filesystem (`InMemoryFileSystem`) is translated from
src/unnamed/part_001 (filesystem.ts).  The JavaScript `Map<string, string>`
backing store is embedded as an association list with `Map`-faithful
operations (`mapSet` replaces in place and appends fresh keys at the end,
`mapGet` returns the bound value, `mapDelete` drops the entry).  String
operations are carried out on the underlying character lists so that proofs
can proceed by list induction.

The transport/client layer (`WasmConnection`, `parseCliUrl`,
`CopilotClient` construction, the tool-call handler) is not shipped under
src/ — only its tests are — so those definitions are modelled from the
spec, as marked on each of them.
-/

/-- Does the character list `l` start with `p`?  List-level `startsWith`,
used to embed the `key.startsWith(...)` calls of the source. -/
def starts : List Char → List Char → Bool
  | _, [] => true
  | [], _ :: _ => false
  | a :: as, b :: bs => a == b && starts as bs

/-- `Map.get` on the association-list embedding of a JavaScript `Map`. -/
def mapGet : List (String × String) → String → Option String
  | [], _ => none
  | (k0, v0) :: rest, k => if k0 = k then some v0 else mapGet rest k

/-- `Map.set` on the association-list embedding: replace the binding in
place when the key is present, append it otherwise. -/
def mapSet : List (String × String) → String → String → List (String × String)
  | [], k, v => [(k, v)]
  | (k0, v0) :: rest, k, v =>
    if k0 = k then (k, v) :: rest else (k0, v0) :: mapSet rest k v

/-- `Map.delete` on the association-list embedding. -/
def mapDelete (m : List (String × String)) (k : String) : List (String × String) :=
  m.filter (fun kv => kv.1 != k)

/-- In-memory filesystem of filesystem.ts: files stored in a `Map`,
no disk I/O. -/
structure InMemoryFileSystem where
  files : List (String × String)

namespace InMemoryFileSystem

/-- `normalize`: replace every backslash by a forward slash, strip the
trailing run of slashes, and map the empty result to `/`
(`path.replace(bs, fs).replace(trailing, empty) or slash`). -/
def normalize (path : String) : String :=
  let replaced := path.data.map (fun c => if c = '\\' then '/' else c)
  let stripped := (replaced.reverse.dropWhile (fun c => c = '/')).reverse
  if stripped = [] then "/" else String.mk stripped

/-- Constructor with `initialFiles`: every initial path is normalized and
inserted with `Map.set`. -/
def ofList (initialFiles : List (String × String)) : InMemoryFileSystem :=
  ⟨initialFiles.foldl (fun m kv => mapSet m (normalize kv.1) kv.2) []⟩

/-- `readFile`: look the normalized path up; missing paths raise ENOENT,
embedded as `Except.error`. -/
def readFile (fs : InMemoryFileSystem) (path : String) : Except String String :=
  let normalized := normalize path
  match mapGet fs.files normalized with
  | none => .error ("ENOENT: no such file: " ++ normalized)
  | some content => .ok content

/-- `writeFile`: bind the normalized path to the content. -/
def writeFile (fs : InMemoryFileSystem) (path content : String) : InMemoryFileSystem :=
  ⟨mapSet fs.files (normalize path) content⟩

/-- Does the string end with a forward slash?  Embeds
`normalized.endsWith(slash)` from the source `exists`. -/
def endsSlash (s : String) : Bool := s.data.getLast? == some '/'

/-- `exists`: exact key match, or any stored key strictly below the
directory; the probe is the normalized path itself when it already ends
with a slash, the normalized path plus a slash otherwise. -/
def existsPath (fs : InMemoryFileSystem) (path : String) : Bool :=
  let normalized := normalize path
  if (mapGet fs.files normalized).isSome then true
  else
    let probe := if endsSlash normalized then normalized else normalized ++ "/"
    fs.files.any (fun kv => starts kv.1.data probe.data)

/-- First-level segment of a relative character list: the part before the
first slash (`relative.split(slash)[0]` in the source). -/
def firstSeg (l : List Char) : List Char := l.takeWhile (fun c => c ≠ '/')

/-- `readDir`: collect the nonempty first-level segments of every key
under the directory, deduplicate (the source accumulates into a `Set`)
and sort ascending (`[...entries].sort()`). -/
def readDir (fs : InMemoryFileSystem) (path : String) : List String :=
  let normalized := normalize path
  let probe := if normalized = "/" then "/" else normalized ++ "/"
  let entries := fs.files.filterMap (fun kv =>
    if starts kv.1.data probe.data then
      let firstSegment := firstSeg (kv.1.data.drop probe.data.length)
      if firstSegment ≠ [] then some (String.mk firstSegment) else none
    else none)
  List.insertionSort (fun a b => a ≤ b) entries.dedup

/-- `mkdir`: a no-op for the in-memory filesystem, directories are
implicit. -/
def mkdir (fs : InMemoryFileSystem) (_path : String) (_recursive : Bool) :
    InMemoryFileSystem := fs

/-- `remove`: delete the normalized path itself, then every key below the
directory, i.e. every key starting with the normalized path plus a
slash. -/
def remove (fs : InMemoryFileSystem) (path : String) : InMemoryFileSystem :=
  let normalized := normalize path
  let afterExact := mapDelete fs.files normalized
  ⟨afterExact.filter (fun kv => !starts kv.1.data (normalized ++ "/").data)⟩

end InMemoryFileSystem

open InMemoryFileSystem

/-- Statement of claim C9 read literally, written from the claim for
comparison with `readDir`: the sorted duplicate-free list of the portions
of each stored key after the directory probe up to the next slash, with no
filtering of empty portions. -/
def readDirClaim (fs : InMemoryFileSystem) (path : String) : List String :=
  let normalized := normalize path
  let probe := if normalized = "/" then "/" else normalized ++ "/"
  let portions := fs.files.filterMap (fun kv =>
    if starts kv.1.data probe.data then
      some (String.mk (firstSeg (kv.1.data.drop probe.data.length)))
    else none)
  List.insertionSort (fun a b => a ≤ b) portions.dedup

/-- Statement of claim C10 read literally, written from the claim for
comparison with `existsPath`: exact key match, or a key starting with the
normalized path followed by `/` (no special case for the root). -/
def existsClaim (fs : InMemoryFileSystem) (p : String) : Bool :=
  (mapGet fs.files (normalize p)).isSome
    || fs.files.any (fun kv => starts kv.1.data (normalize p ++ "/").data)

/-! ### In-process (wasm) bridge connection, modelled from the spec -/

/-- Opaque structured JSON data carried by requests and responses. -/
inductive Value where
  | nullV
  | boolV (b : Bool)
  | numV (n : Int)
  | strV (s : String)
  | arrV (xs : List Value)
  | objV (fields : List (String × Value))

/-- An outbound JSON-RPC request frame: fresh identifier, method name and
parameters. -/
structure RpcRequest where
  id : Nat
  method : String
  params : Value

/-- The error object of a JSON-RPC response frame: numeric code and
message. -/
structure RpcErrorObj where
  code : Int
  message : String

/-- A response frame returned by the bridge function: either a `result`
field or an `error` field. -/
inductive ResponseFrame where
  | resultFrame (v : Value)
  | errorFrame (e : RpcErrorObj)

/-- How an outbound call through the bridge connection can fail: the
connection was already disposed, or the response frame carried an `error`
field with the given message. -/
inductive RpcFailure where
  | disposedErr
  | remoteErr (message : String)

/-- Modelled from the spec: the `WasmConnection` of
src/nodejs/src/wasm-transport.ts is not under src/.  State of the
in-process bridge connection: the disposed flag, the monotonically
increasing outbound request-id counter, the bridge request/response
function (`send_jsonrpc`, abstracted from serialized strings to frames),
and a log of the requests actually handed to the bridge function, recording
whether the bridge was invoked. -/
structure WasmConnection where
  disposed : Bool
  nextId : Nat
  send : RpcRequest → ResponseFrame
  calls : List RpcRequest

/-- Modelled from the spec: `WasmConnection.sendRequest` of
src/nodejs/src/wasm-transport.ts is not under src/.  If the connection is
disposed, fail immediately with a disposed error without invoking the
bridge; otherwise assign a fresh identifier, invoke the bridge function,
and resolve with the `result` value or reject with the `error` message
depending on which field the returned frame carries, regardless of the
numeric error code. -/
def sendRequest (conn : WasmConnection) (method : String) (params : Value) :
    Except RpcFailure Value × WasmConnection :=
  if conn.disposed then (.error .disposedErr, conn)
  else
    let req : RpcRequest := ⟨conn.nextId, method, params⟩
    let outcome : Except RpcFailure Value :=
      match conn.send req with
      | .resultFrame v => .ok v
      | .errorFrame e => .error (.remoteErr e.message)
    (outcome, { conn with nextId := conn.nextId + 1, calls := conn.calls ++ [req] })

/-- Modelled from the spec: `WasmConnection.dispose` of
src/nodejs/src/wasm-transport.ts is not under src/.  Disposal marks the
connection so that every later outbound call fails immediately. -/
def dispose (conn : WasmConnection) : WasmConnection := { conn with disposed := true }

/-! ### Tool-call handling, modelled from the spec -/

/-- A tool-call request from the runtime: session id, call id, tool name
and opaque arguments. -/
structure ToolCallRequest where
  sessionId : String
  toolCallId : String
  toolName : String
  arguments : Value

/-- The standardized tool result envelope: success with a value or failure
with an error message (`resultType` success/failure on the wire). -/
inductive ToolResult where
  | success (value : Value)
  | failure (error : String)

/-- Exact-name lookup in the list of locally registered tool handlers; a
handler maps the arguments either to a returned value or to a thrown
message (`Except.error`). -/
def lookupHandler : List (String × (Value → Except String Value)) → String →
    Option (Value → Except String Value)
  | [], _ => none
  | (n, h) :: rest, name => if n = name then some h else lookupHandler rest name

/-- The apostrophe character (U+0027), used in the standardized
tool-not-supported error text. -/
def tick : String := String.mk [Char.ofNat 39]

/-- Modelled from the spec: `CopilotClient.handleToolCallRequest` of
src/nodejs/src/client.ts is not under src/.  Look a handler up by exact
tool name; if absent, return a failure result whose error text is exactly
tool quote name quote not supported; if present, wrap a thrown message as a
failure result and a returned value as a success result.  The function is
total: it never throws. -/
def handleToolCallRequest (tools : List (String × (Value → Except String Value)))
    (req : ToolCallRequest) : ToolResult :=
  match lookupHandler tools req.toolName with
  | none => .failure ("tool " ++ tick ++ req.toolName ++ tick ++ " not supported")
  | some h =>
    match h req.arguments with
    | .error msg => .failure msg
    | .ok v => .success v

/-! ### Endpoint parsing, modelled from the spec -/

/-- The characters of the scheme `http://`. -/
def httpMark : List Char := ['h', 't', 't', 'p', ':', '/', '/']

/-- The characters of the scheme `https://`. -/
def httpsMark : List Char := ['h', 't', 't', 'p', 's', ':', '/', '/']

/-- Strip a leading `http://` or `https://` scheme, if present. -/
def stripSchemeL (l : List Char) : List Char :=
  if starts l httpMark then l.drop httpMark.length
  else if starts l httpsMark then l.drop httpsMark.length
  else l

/-- Split a character list at every occurrence of the character `c`;
always returns at least one (possibly empty) part. -/
def splitOnChar (c : Char) : List Char → List (List Char)
  | [] => [[]]
  | x :: xs =>
    if x = c then [] :: splitOnChar c xs
    else
      match splitOnChar c xs with
      | [] => [[x]]
      | y :: ys => (x :: y) :: ys

/-- Rejoin the parts produced by `splitOnChar c`, reinserting `c`. -/
def joinChar (c : Char) : List (List Char) → List Char
  | [] => []
  | [x] => x
  | x :: xs => x ++ c :: joinChar c xs

/-- One or more decimal digits. -/
def isDigitsL (l : List Char) : Bool := !l.isEmpty && l.all (fun c => c.isDigit)

/-- Decimal value of a digit list. -/
def digitsVal (l : List Char) : Nat := l.foldl (fun a c => a * 10 + (c.toNat - 48)) 0

/-- A port token: one or more decimal digits, optionally preceded by a
minus sign. -/
def isPortTok (l : List Char) : Bool :=
  match l with
  | [] => false
  | c :: rest => if c = '-' then isDigitsL rest else isDigitsL (c :: rest)

/-- Integer value of a port token. -/
def portVal (l : List Char) : Int :=
  match l with
  | [] => 0
  | c :: rest => if c = '-' then -(digitsVal rest : Int) else (digitsVal (c :: rest) : Int)

/-- The host/port pair produced by endpoint parsing. -/
structure Endpoint where
  host : String
  port : Nat
  deriving DecidableEq

/-- The two distinct endpoint-parsing failures: a string not matching the
grammar (Invalid cliUrl format) and a port outside 1..65535 (Invalid port
in cliUrl). -/
inductive CliUrlError where
  | formatErr
  | portRangeErr
  deriving DecidableEq

/-- Modelled from the spec: `parseCliUrl` of
src/nodejs/src/tcp-transport.ts is not under src/.  Grammar
[http(s)://][host:]port: strip an optional scheme, split the rest at
colons; a single part is a bare port with the host defaulting to
localhost; two parts are a nonempty colon-free host and a port; a port
integer outside 1..65535 is a distinct range error; everything else is a
format error. -/
def parseCliUrl (s : String) : Except CliUrlError Endpoint :=
  let rest := stripSchemeL s.data
  match splitOnChar ':' rest with
  | [p] =>
    if isPortTok p then
      if 1 ≤ portVal p ∧ portVal p ≤ 65535 then .ok ⟨"localhost", (portVal p).toNat⟩
      else .error .portRangeErr
    else .error .formatErr
  | [h, p] =>
    if h ≠ [] ∧ isPortTok p = true then
      if 1 ≤ portVal p ∧ portVal p ≤ 65535 then .ok ⟨String.mk h, (portVal p).toNat⟩
      else .error .portRangeErr
    else .error .formatErr
  | _ => .error .formatErr

/-- Grammar of claim C3, written from the claim for comparison with
`parseCliUrl`: the endpoint string is an optional scheme `http://` or
`https://`, followed by an optional host (nonempty and containing no
colon) terminated by a colon, followed by a port token (an optional minus
sign and one or more decimal digits). -/
def CliUrlShape (s : String) (hostPart : Option String) (portStr : String) : Prop :=
  (∃ sch : String, (sch = "" ∨ sch = "http://" ∨ sch = "https://") ∧
      s.data = sch.data ++ (match hostPart with
        | none => portStr.data
        | some h => h.data ++ ':' :: portStr.data)) ∧
  (∀ h, hostPart = some h → h.data ≠ [] ∧ ':' ∉ h.data) ∧
  isPortTok portStr.data = true

/-- The host selected for a grammar decomposition: the explicit host part,
or localhost when the host is omitted. -/
def hostOf : Option String → String
  | none => "localhost"
  | some hh => hh

/-! ### Client construction, modelled from the spec -/

/-- The configuration fields of `CopilotClientOptions` that the
construction-time validation reads: connection-mode fields (`cliUrl`,
`cliPath`, `useStdio`, `runtime`) and authentication fields
(`githubToken`, `useLoggedInUser`). -/
structure CopilotClientOptions where
  cliUrl : Option String := none
  cliPath : Option String := none
  useStdio : Option Bool := none
  runtime : Option String := none
  githubToken : Option String := none
  useLoggedInUser : Option Bool := none
  deriving DecidableEq

/-- The transport selected by the constructed client. -/
inductive TransportKind where
  | stdioK
  | tcpK
  | wasmK
  deriving DecidableEq

/-- The options as resolved and stored on the constructed client. -/
structure ResolvedOptions where
  useStdio : Bool
  useLoggedInUser : Bool
  githubToken : Option String
  deriving DecidableEq

/-- A constructed client: its resolved options and its selected
transport.  No channel is opened at construction time; the transport is
only a selected kind. -/
structure CopilotClient where
  options : ResolvedOptions
  transport : TransportKind
  deriving DecidableEq

/-- The synchronous construction-time failures: the two mutual-exclusivity
violations, the auth-with-remote-endpoint violation, and an invalid
`cliUrl`. -/
inductive ClientError where
  | urlWithLocal
  | wasmWithOther
  | authWithUrl
  | badUrl (e : CliUrlError)
  deriving DecidableEq

/-- Is the construction failure one of the mutual-exclusivity errors? -/
def isMutualExclusivityError : ClientError → Bool
  | .urlWithLocal => true
  | .wasmWithOther => true
  | _ => false

/-- Modelled from the spec: the `CopilotClient` constructor of
src/nodejs/src/client.ts is not under src/.  Validate the
mutual-exclusivity invariants and the secure-by-default auth rules before
anything else, then select the transport from the populated fields;
`useLoggedInUser` defaults to false whenever unset; providing `cliUrl`
forces `useStdio` to false. -/
def mkCopilotClient (o : CopilotClientOptions) : Except ClientError CopilotClient :=
  if o.cliUrl.isSome ∧ (o.cliPath.isSome ∨ o.useStdio.isSome) then .error .urlWithLocal
  else if o.runtime = some "wasm" ∧ (o.cliPath.isSome ∨ o.cliUrl.isSome) then
    .error .wasmWithOther
  else if o.cliUrl.isSome ∧ (o.githubToken.isSome ∨ o.useLoggedInUser.isSome) then
    .error .authWithUrl
  else
    match o.cliUrl with
    | some u =>
      match parseCliUrl u with
      | .error e => .error (.badUrl e)
      | .ok _ => .ok ⟨⟨false, o.useLoggedInUser.getD false, o.githubToken⟩, .tcpK⟩
    | none =>
      if o.runtime = some "wasm" then
        .ok ⟨⟨false, o.useLoggedInUser.getD false, o.githubToken⟩, .wasmK⟩
      else
        .ok ⟨⟨o.useStdio.getD true, o.useLoggedInUser.getD false, o.githubToken⟩, .stdioK⟩

/-! ### Association-list and string lemmas -/

theorem mapGet_mapSet_self (m : List (String × String)) (k v : String) :
    mapGet (mapSet m k v) k = some v := by
  induction m with
  | nil => simp [mapSet, mapGet]
  | cons kv rest ih =>
    by_cases h : kv.1 = k
    · simp [mapSet, h, mapGet]
    · simp [mapSet, h, mapGet, ih]

theorem mapGet_filter_key (m : List (String × String)) (p : String → Bool)
    (k : String) (hp : p k = true) :
    mapGet (m.filter fun kv => p kv.1) k = mapGet m k := by
  induction m with
  | nil => simp
  | cons kv rest ih =>
    by_cases hk : kv.1 = k
    · have : p kv.1 = true := by rw [hk]; exact hp
      simp [List.filter_cons, this, hp, mapGet, hk]
    · cases h0 : p kv.1 with
      | true => simp [List.filter_cons, h0, mapGet, hk, ih]
      | false => simp [List.filter_cons, h0, mapGet, hk, ih]

theorem mapGet_eq_none (m : List (String × String)) (k : String)
    (h : ∀ kv ∈ m, kv.1 ≠ k) : mapGet m k = none := by
  induction m with
  | nil => rfl
  | cons kv rest ih =>
    have h1 : kv.1 ≠ k := h kv (List.mem_cons_self kv rest)
    simp [mapGet, h1]
    exact ih (fun kv' hm => h kv' (List.mem_cons_of_mem kv hm))

theorem starts_iff_append (p l : List Char) :
    starts l p = true ↔ ∃ t, l = p ++ t := by
  induction p generalizing l with
  | nil => simp [starts]
  | cons b bs ih =>
    cases l with
    | nil => simp [starts]
    | cons a as =>
      simp only [starts, Bool.and_eq_true, beq_iff_eq, ih, List.cons_append,
        List.cons.injEq]
      constructor
      · rintro ⟨rfl, t, rfl⟩; exact ⟨t, rfl, rfl⟩
      · rintro ⟨t, rfl, rfl⟩; exact ⟨rfl, t, rfl⟩

theorem dropWhile_head_false (q : Char → Bool) (l : List Char) (a : Char)
    (t : List Char) (h : l.dropWhile q = a :: t) : q a = false := by
  induction l with
  | nil => simp [List.dropWhile] at h
  | cons c cs ih =>
    rw [List.dropWhile_cons] at h
    split at h
    · exact ih h
    · cases h' : q c
      · cases h; exact h'
      · simp_all

theorem normalize_endsSlash (p : String) (h : normalize p ≠ "/") :
    endsSlash (normalize p) = false := by
  simp only [InMemoryFileSystem.normalize] at h ⊢
  split at h
  · exact absurd rfl h
  · rename_i hs
    rw [if_neg hs]
    cases hd : (p.data.map (fun c => if c = '\\' then '/' else c)).reverse.dropWhile
        (fun c => decide (c = '/')) with
    | nil => exact absurd (by simp [hd]) hs
    | cons a t =>
      have ha : decide (a = '/') = false := dropWhile_head_false _ _ a t hd
      have ha' : a ≠ '/' := by simpa using ha
      simp [endsSlash, hd, List.getLast?_reverse, ha']

/-- Membership in the segment collection of `readDir`, for an arbitrary
probe string. -/
theorem mem_readDir_core (files : List (String × String)) (pr : String) (x : String) :
    (x ∈ files.filterMap (fun kv =>
      if starts kv.1.data pr.data then
        let firstSegment := firstSeg (kv.1.data.drop pr.data.length)
        if firstSegment ≠ [] then some (String.mk firstSegment) else none
      else none)) ↔
    ∃ kv ∈ files, starts kv.1.data pr.data = true
      ∧ firstSeg (kv.1.data.drop pr.data.length) ≠ []
      ∧ x = String.mk (firstSeg (kv.1.data.drop pr.data.length)) := by
  rw [List.mem_filterMap]
  constructor
  · rintro ⟨kv, hm, hf⟩
    dsimp only at hf
    split at hf
    · rename_i h1
      split at hf
      · rename_i h2
        injection hf with hx
        exact ⟨kv, hm, h1, h2, hx.symm⟩
      · exact absurd hf (by simp)
    · exact absurd hf (by simp)
  · rintro ⟨kv, hm, h1, h2, rfl⟩
    refine ⟨kv, hm, ?_⟩
    dsimp only
    rw [if_pos h1, if_pos h2]

/-! ### Filesystem claims -/

/-- Claim C7: for every filesystem state, path and content, writing the
content and then reading any normalization-equivalent spelling of the path
returns exactly the written content. -/
theorem fs_write_read_roundtrip (fs : InMemoryFileSystem) (p q c : String)
    (h : normalize q = normalize p) :
    readFile (writeFile fs p c) q = .ok c := by
  simp only [readFile, writeFile, h, mapGet_mapSet_self]

theorem fs_write_read_roundtrip_witness :
    readFile (writeFile ⟨[]⟩ "/doc.txt" "hello") "/doc.txt/" = .ok "hello" :=
  fs_write_read_roundtrip ⟨[]⟩ "/doc.txt" "/doc.txt/" "hello" (by decide)

/-- Claim C8 counterexample: with the single stored file `/a.txt`, removing
the path `/` (whose normalization is `/`) leaves the store untouched, and
`existsPath` afterwards still returns true, not false as the claim
demands. -/
theorem fs_remove_root_cex :
    existsPath (remove (ofList [("/a.txt", "x")]) "/") "/" = true ∧
      (remove (ofList [("/a.txt", "x")]) "/").files = [("/a.txt", "x")] := by
  constructor
  · decide
  · decide

/-- Claim C8 (amended): `remove d` deletes the entry at the normalized path
and every entry whose key extends it by the `/` separator, and leaves every
other entry unchanged; provided `d` does not normalize to the root `/`,
`existsPath d` afterwards returns false (at the root the probe used by
`remove` is `//` while the probe used by `existsPath` is `/`, so entries
below the root survive and keep `existsPath` true). -/
theorem fs_remove_amended (fs : InMemoryFileSystem) (d : String) :
    (∀ k : String, (k = normalize d ∨ starts k.data (normalize d ++ "/").data = true) →
        mapGet (remove fs d).files k = none)
    ∧ (∀ k : String, k ≠ normalize d → starts k.data (normalize d ++ "/").data = false →
        mapGet (remove fs d).files k = mapGet fs.files k)
    ∧ (normalize d ≠ "/" → existsPath (remove fs d) d = false) := by
  have hfiles : (remove fs d).files =
      (fs.files.filter (fun kv => kv.1 != normalize d)).filter
        (fun kv => !starts kv.1.data (normalize d ++ "/").data) := rfl
  have key1 : ∀ k : String,
      (k = normalize d ∨ starts k.data (normalize d ++ "/").data = true) →
      mapGet (remove fs d).files k = none := by
    intro k hk
    apply mapGet_eq_none
    intro kv hm
    rw [hfiles] at hm
    have hm2 := List.mem_filter.mp hm
    have hm1 := List.mem_filter.mp hm2.1
    have hne : kv.1 ≠ normalize d := by simpa using hm1.2
    have hns : starts kv.1.data (normalize d ++ "/").data = false := by
      simpa using hm2.2
    rcases hk with rfl | hks
    · exact hne
    · intro hcontra
      rw [hcontra] at hns
      rw [hks] at hns
      exact absurd hns (by simp)
  refine ⟨key1, ?_, ?_⟩
  · intro k hk1 hk2
    rw [hfiles]
    have e1 : mapGet ((fs.files.filter (fun kv => kv.1 != normalize d)).filter
          (fun kv => !starts kv.1.data (normalize d ++ "/").data)) k =
        mapGet (fs.files.filter (fun kv => kv.1 != normalize d)) k :=
      mapGet_filter_key _ (fun key => !starts key.data (normalize d ++ "/").data) k
        (by simpa using hk2)
    have e2 : mapGet (fs.files.filter (fun kv => kv.1 != normalize d)) k =
        mapGet fs.files k :=
      mapGet_filter_key _ (fun key => key != normalize d) k (by simpa using hk1)
    exact e1.trans e2
  · intro hroot
    have h1 : mapGet (remove fs d).files (normalize d) = none :=
      key1 (normalize d) (Or.inl rfl)
    have h2 : endsSlash (normalize d) = false := normalize_endsSlash d hroot
    simp only [existsPath, h1, Option.isSome_none, Bool.false_eq_true, if_false, h2]
    rw [List.any_eq_false]
    intro kv hm
    rw [hfiles] at hm
    have hm2 := List.mem_filter.mp hm
    simpa using hm2.2

theorem fs_remove_amended_witness :
    mapGet (remove (ofList [("/dir/a.txt", "a"), ("/dir/sub/b.txt", "b")]) "/dir").files
        "/dir/a.txt" = none
    ∧ mapGet (remove (ofList [("/dir/a.txt", "a"), ("/dir/sub/b.txt", "b")]) "/dir").files
        "/other" =
      mapGet (ofList [("/dir/a.txt", "a"), ("/dir/sub/b.txt", "b")]).files "/other"
    ∧ existsPath (remove (ofList [("/dir/a.txt", "a"), ("/dir/sub/b.txt", "b")]) "/dir")
        "/dir" = false :=
  ⟨(fs_remove_amended (ofList [("/dir/a.txt", "a"), ("/dir/sub/b.txt", "b")]) "/dir").1
      "/dir/a.txt" (Or.inr (by decide)),
   (fs_remove_amended (ofList [("/dir/a.txt", "a"), ("/dir/sub/b.txt", "b")]) "/dir").2.1
      "/other" (by decide) (by decide),
   (fs_remove_amended (ofList [("/dir/a.txt", "a"), ("/dir/sub/b.txt", "b")]) "/dir").2.2
      (by decide)⟩

/-- Claim C9 counterexample: for the stored key `/a//b` (an internal double
slash survives normalization) under the directory `/a`, the portion of the
key after the probe `/a/` up to the next slash is the empty string, so the
claim predicts the listing `[""]`, but `readDir` skips empty first segments
and returns `[]`. -/
theorem fs_readDir_portions_cex :
    readDir (ofList [("/a//b", "c")]) "/a" = []
    ∧ readDirClaim (ofList [("/a//b", "c")]) "/a" = [""] := by
  constructor
  · decide
  · decide

/-- Claim C9 (amended): `readDir` returns exactly the nonempty first-level
segments (the portion of each key after the directory probe up to the next
slash, skipped when that portion is empty) of the stored keys under the
directory, sorted in ascending order with no duplicates. -/
theorem fs_readDir_amended (fs : InMemoryFileSystem) (p : String) :
    List.Sorted (fun a b : String => a ≤ b) (readDir fs p)
    ∧ (readDir fs p).Nodup
    ∧ (∀ x : String, x ∈ readDir fs p ↔ ∃ kv ∈ fs.files,
        starts kv.1.data ((if normalize p = "/" then "/" else normalize p ++ "/")).data = true
        ∧ firstSeg (kv.1.data.drop
            ((if normalize p = "/" then "/" else normalize p ++ "/")).data.length) ≠ []
        ∧ x = String.mk (firstSeg (kv.1.data.drop
            ((if normalize p = "/" then "/" else normalize p ++ "/")).data.length))) := by
  refine ⟨?_, ?_, ?_⟩
  · exact List.sorted_insertionSort _ _
  · exact ((List.perm_insertionSort _ _).nodup_iff).mpr (List.nodup_dedup _)
  · intro x
    simp only [readDir]
    rw [(List.perm_insertionSort _ _).mem_iff, List.mem_dedup]
    exact mem_readDir_core fs.files _ x

theorem fs_readDir_amended_witness :
    List.Sorted (fun a b : String => a ≤ b)
      (readDir (ofList [("/dir/a.txt", "a"), ("/dir/b.txt", "b"), ("/dir/sub/c.txt", "c")])
        "/dir") :=
  (fs_readDir_amended
    (ofList [("/dir/a.txt", "a"), ("/dir/b.txt", "b"), ("/dir/sub/c.txt", "c")]) "/dir").1

/-- Claim C10 counterexample: with the single stored file `/a.txt`,
`existsPath "/"` returns true (the probe degenerates to `/` because the
normalized path already ends with a slash), while the claim — whose probe
is the normalized path `/` followed by `/`, i.e. `//` — predicts false. -/
theorem fs_existsPath_claim_cex :
    existsPath (ofList [("/a.txt", "x")]) "/" = true
    ∧ existsClaim (ofList [("/a.txt", "x")]) "/" = false := by
  constructor
  · decide
  · decide

/-- Claim C10 (amended): `existsPath p` is true exactly when the store has
an entry at the normalized path, or an entry whose key starts with the
probe — the normalized path itself when it already ends with `/` (the root
case), the normalized path followed by `/` otherwise; `mkdir` stores
nothing, so on the empty filesystem `mkdir p` followed by `existsPath p`
returns false. -/
theorem fs_existsPath_amended (fs : InMemoryFileSystem) (p : String) :
    (existsPath fs p = true ↔ ((mapGet fs.files (normalize p)).isSome = true
      ∨ ∃ kv ∈ fs.files, starts kv.1.data
          ((if endsSlash (normalize p) then normalize p
            else normalize p ++ "/")).data = true))
    ∧ (∀ r : Bool, mkdir fs p r = fs)
    ∧ (∀ r : Bool, existsPath (mkdir ⟨[]⟩ p r) p = false) := by
  refine ⟨?_, fun _ => rfl, fun _ => rfl⟩
  simp only [existsPath]
  split
  · rename_i hs
    simp [hs]
  · rename_i hs
    simp only [List.any_eq_true]
    constructor
    · intro hx
      exact Or.inr hx
    · rintro (hx | hx)
      · exact absurd hx hs
      · exact hx

theorem fs_existsPath_amended_witness :
    existsPath (ofList [("/dir/file.txt", "content")]) "/dir" = true :=
  ((fs_existsPath_amended (ofList [("/dir/file.txt", "content")]) "/dir").1).mpr
    (Or.inr ⟨("/dir/file.txt", "content"), by decide, by decide⟩)

/-! ### Tool-call and bridge-connection claims -/

/-- Claim C1: for every handler registry and every tool-call request whose
tool name has no locally registered handler, the tool-call handler returns
a structured failure result whose error text is exactly
tool + apostrophe + name + apostrophe + not supported; the handler is a
total function into the result envelope, so it never throws and the
connection state is untouched. -/
theorem toolcall_unregistered_failure
    (tools : List (String × (Value → Except String Value))) (req : ToolCallRequest)
    (h : lookupHandler tools req.toolName = none) :
    handleToolCallRequest tools req =
      .failure ("tool " ++ tick ++ req.toolName ++ tick ++ " not supported") := by
  simp only [handleToolCallRequest, h]

theorem toolcall_unregistered_failure_witness :
    handleToolCallRequest [] ⟨"s", "123", "missing_tool", Value.nullV⟩ =
      .failure ("tool " ++ tick ++ "missing_tool" ++ tick ++ " not supported") :=
  toolcall_unregistered_failure [] ⟨"s", "123", "missing_tool", Value.nullV⟩ rfl

/-- Claim C2: for every non-disposed bridge connection and outbound
request, if the frame returned by the bridge function carries an `error`
field then the call fails with exactly the frame's error message —
whatever the numeric code — and if it carries a `result` field then the
call resolves with that value. -/
theorem wasm_sendRequest_frame (conn : WasmConnection) (m : String) (ps : Value)
    (hd : conn.disposed = false) :
    (∀ e : RpcErrorObj, conn.send ⟨conn.nextId, m, ps⟩ = .errorFrame e →
      (sendRequest conn m ps).1 = .error (.remoteErr e.message))
    ∧ (∀ v : Value, conn.send ⟨conn.nextId, m, ps⟩ = .resultFrame v →
      (sendRequest conn m ps).1 = .ok v) := by
  constructor
  · intro e he
    simp [sendRequest, hd, he]
  · intro v hv
    simp [sendRequest, hd, hv]

theorem wasm_sendRequest_frame_witness :
    (sendRequest ⟨false, 1, fun r => if r.method = "ping" then .resultFrame (.strV "pong")
        else .errorFrame ⟨-32601, "Method not found"⟩, []⟩ "unknown.method" .nullV).1 =
      .error (.remoteErr "Method not found")
    ∧ (sendRequest ⟨false, 1, fun r => if r.method = "ping" then .resultFrame (.strV "pong")
        else .errorFrame ⟨-32601, "Method not found"⟩, []⟩ "ping" .nullV).1 =
      .ok (.strV "pong") :=
  ⟨(wasm_sendRequest_frame _ "unknown.method" .nullV rfl).1 ⟨-32601, "Method not found"⟩ rfl,
   (wasm_sendRequest_frame _ "ping" .nullV rfl).2 (.strV "pong") rfl⟩

/-- Claim C6: after disposing the bridge connection, every subsequent
outbound call fails immediately with the disposed error, and the
connection state — in particular the log of requests handed to the bridge
function — is unchanged: the bridge request function is not invoked for
that call. -/
theorem wasm_dispose_blocks (conn : WasmConnection) (m : String) (ps : Value) :
    (sendRequest (dispose conn) m ps).1 = .error .disposedErr
    ∧ (sendRequest (dispose conn) m ps).2 = dispose conn
    ∧ (sendRequest (dispose conn) m ps).2.calls = conn.calls :=
  ⟨rfl, rfl, rfl⟩

/-! ### Client-construction claims -/

/-- Every successful construction stores `useLoggedInUser` resolved as the
explicit option value, defaulting to false when unset. -/
theorem mkCopilotClient_ok_useLoggedInUser (o : CopilotClientOptions) (c : CopilotClient)
    (hc : mkCopilotClient o = .ok c) :
    c.options.useLoggedInUser = o.useLoggedInUser.getD false := by
  unfold mkCopilotClient at hc
  split at hc
  · exact absurd hc (by simp)
  · split at hc
    · exact absurd hc (by simp)
    · split at hc
      · exact absurd hc (by simp)
      · split at hc
        · split at hc
          · exact absurd hc (by simp)
          · injection hc with h3
            subst h3
            rfl
        · split at hc
          · injection hc with h3
            subst h3
            rfl
          · injection hc with h3
            subst h3
            rfl

/-- Claim C4: every configuration that combines a remote endpoint
(`cliUrl`) with a local-process field (`cliPath` or `useStdio`), or the
in-process runtime (`runtime` wasm) with `cliPath` or `cliUrl`, makes
`mkCopilotClient` fail synchronously with a mutual-exclusivity error;
construction returns the error directly, so no client value — and hence no
transport or channel — is ever produced. -/
theorem client_mutual_exclusivity (o : CopilotClientOptions)
    (h : (o.cliUrl.isSome ∧ (o.cliPath.isSome ∨ o.useStdio.isSome))
      ∨ (o.runtime = some "wasm" ∧ (o.cliPath.isSome ∨ o.cliUrl.isSome))) :
    ∃ e : ClientError, mkCopilotClient o = .error e
      ∧ isMutualExclusivityError e = true := by
  by_cases h1 : o.cliUrl.isSome ∧ (o.cliPath.isSome ∨ o.useStdio.isSome)
  · exact ⟨.urlWithLocal, by simp [mkCopilotClient, h1], rfl⟩
  · have h2 : o.runtime = some "wasm" ∧ (o.cliPath.isSome ∨ o.cliUrl.isSome) :=
      h.resolve_left h1
    exact ⟨.wasmWithOther, by simp [mkCopilotClient, h1, h2], rfl⟩

theorem client_mutual_exclusivity_witness :
    (∃ e : ClientError,
      mkCopilotClient ⟨some "localhost:8080", none, some true, none, none, none⟩ = .error e
      ∧ isMutualExclusivityError e = true)
    ∧ (∃ e : ClientError,
      mkCopilotClient ⟨none, some "/bin/cli", none, some "wasm", none, none⟩ = .error e
      ∧ isMutualExclusivityError e = true) :=
  ⟨client_mutual_exclusivity ⟨some "localhost:8080", none, some true, none, none, none⟩
      (Or.inl (by decide)),
   client_mutual_exclusivity ⟨none, some "/bin/cli", none, some "wasm", none, none⟩
      (Or.inr (by decide))⟩

/-- Claim C5: `useLoggedInUser` resolves to false whenever it is unset,
regardless of whether a `githubToken` credential is supplied; an explicit
value is kept in either direction; and configuring a remote endpoint
together with `githubToken` or an explicit `useLoggedInUser` makes
construction fail. -/
theorem client_useLoggedInUser_secure_default (o : CopilotClientOptions) :
    ((o.cliUrl.isSome ∧ (o.githubToken.isSome ∨ o.useLoggedInUser.isSome)) →
      ∃ e : ClientError, mkCopilotClient o = .error e)
    ∧ (∀ c : CopilotClient, mkCopilotClient o = .ok c → o.useLoggedInUser = none →
        c.options.useLoggedInUser = false)
    ∧ (∀ (c : CopilotClient) (b : Bool), mkCopilotClient o = .ok c →
        o.useLoggedInUser = some b → c.options.useLoggedInUser = b) := by
  refine ⟨?_, ?_, ?_⟩
  · intro h
    by_cases h1 : o.cliUrl.isSome ∧ (o.cliPath.isSome ∨ o.useStdio.isSome)
    · exact ⟨.urlWithLocal, by simp [mkCopilotClient, h1]⟩
    · by_cases h2 : o.runtime = some "wasm" ∧ (o.cliPath.isSome ∨ o.cliUrl.isSome)
      · exact ⟨.wasmWithOther, by simp [mkCopilotClient, h1, h2]⟩
      · have h1' : ¬(o.cliPath.isSome = true ∨ o.useStdio.isSome = true) :=
          fun hx => h1 ⟨h.1, hx⟩
        have h2' : ¬(o.runtime = some "wasm") := fun hx => h2 ⟨hx, Or.inr h.1⟩
        exact ⟨.authWithUrl, by simp [mkCopilotClient, h1', h2', h]⟩
  · intro c hc hu
    rw [mkCopilotClient_ok_useLoggedInUser o c hc, hu]
    rfl
  · intro c b hc hu
    rw [mkCopilotClient_ok_useLoggedInUser o c hc, hu]
    rfl

theorem client_useLoggedInUser_secure_default_witness :
    (∃ e : ClientError,
      mkCopilotClient ⟨some "localhost:8080", none, none, none, some "gho_test_token", none⟩
        = .error e)
    ∧ (CopilotClient.mk ⟨true, false, some "gho_test_token"⟩ .stdioK).options.useLoggedInUser
        = false
    ∧ (CopilotClient.mk ⟨true, true, some "gho_test_token"⟩ .stdioK).options.useLoggedInUser
        = true :=
  ⟨(client_useLoggedInUser_secure_default
      ⟨some "localhost:8080", none, none, none, some "gho_test_token", none⟩).1 (by decide),
   (client_useLoggedInUser_secure_default
      ⟨none, none, none, none, some "gho_test_token", none⟩).2.1
      (CopilotClient.mk ⟨true, false, some "gho_test_token"⟩ .stdioK) rfl rfl,
   (client_useLoggedInUser_secure_default
      ⟨none, none, none, none, some "gho_test_token", some true⟩).2.2
      (CopilotClient.mk ⟨true, true, some "gho_test_token"⟩ .stdioK) true rfl rfl⟩

/-! ### Endpoint-grammar lemmas -/

theorem splitOnChar_ne_nil (c : Char) (l : List Char) : splitOnChar c l ≠ [] := by
  cases l with
  | nil => simp [splitOnChar]
  | cons x xs =>
    by_cases hx : x = c
    · simp [splitOnChar, hx]
    · cases h : splitOnChar c xs with
      | nil => simp [splitOnChar, hx, h]
      | cons y ys => simp [splitOnChar, hx, h]

theorem joinChar_splitOnChar (c : Char) (l : List Char) :
    joinChar c (splitOnChar c l) = l := by
  induction l with
  | nil => rfl
  | cons x xs ih =>
    by_cases hx : x = c
    · rw [splitOnChar, if_pos hx]
      cases h : splitOnChar c xs with
      | nil => exact absurd h (splitOnChar_ne_nil c xs)
      | cons y ys =>
        rw [h] at ih
        show [] ++ c :: joinChar c (y :: ys) = x :: xs
        rw [List.nil_append, ih, hx]
    · rw [splitOnChar, if_neg hx]
      cases h : splitOnChar c xs with
      | nil => exact absurd h (splitOnChar_ne_nil c xs)
      | cons y ys =>
        rw [h] at ih
        cases ys with
        | nil =>
          show x :: y = x :: xs
          have hy : y = xs := ih
          rw [hy]
        | cons z zs =>
          show (x :: y) ++ c :: joinChar c (z :: zs) = x :: xs
          have ih' : y ++ c :: joinChar c (z :: zs) = xs := ih
          rw [List.cons_append, ih']

theorem splitOnChar_parts (c : Char) (l : List Char) :
    ∀ part ∈ splitOnChar c l, c ∉ part := by
  induction l with
  | nil =>
    intro part hp hmem
    simp [splitOnChar] at hp
    subst hp
    simp at hmem
  | cons x xs ih =>
    intro part hp hmem
    by_cases hx : x = c
    · rw [splitOnChar, if_pos hx] at hp
      rcases List.mem_cons.mp hp with rfl | hp2
      · simp at hmem
      · exact ih part hp2 hmem
    · rw [splitOnChar, if_neg hx] at hp
      cases h : splitOnChar c xs with
      | nil => exact absurd h (splitOnChar_ne_nil c xs)
      | cons y ys =>
        rw [h] at hp
        rcases List.mem_cons.mp hp with rfl | hp2
        · rcases List.mem_cons.mp hmem with hce | hmem2
          · exact hx hce.symm
          · exact ih y (h ▸ List.mem_cons_self y ys) hmem2
        · exact ih part (h ▸ List.mem_cons_of_mem y hp2) hmem

theorem splitOnChar_single (c : Char) (l a : List Char)
    (h : splitOnChar c l = [a]) : l = a ∧ c ∉ a := by
  have hj := joinChar_splitOnChar c l
  rw [h] at hj
  refine ⟨?_, splitOnChar_parts c l a (by rw [h]; simp)⟩
  rw [← hj]
  rfl

theorem splitOnChar_pair (c : Char) (l a b : List Char)
    (h : splitOnChar c l = [a, b]) : l = a ++ c :: b ∧ c ∉ a ∧ c ∉ b := by
  have hj := joinChar_splitOnChar c l
  rw [h] at hj
  refine ⟨?_, splitOnChar_parts c l a (by rw [h]; simp),
    splitOnChar_parts c l b (by rw [h]; simp)⟩
  rw [← hj]
  rfl

theorem splitOnChar_no (c : Char) (l : List Char) (h : c ∉ l) :
    splitOnChar c l = [l] := by
  induction l with
  | nil => rfl
  | cons x xs ih =>
    have hx : x ≠ c := fun e => h (by rw [e]; exact List.mem_cons_self c xs)
    have hxs : c ∉ xs := fun m => h (List.mem_cons_of_mem x m)
    rw [splitOnChar, if_neg hx, ih hxs]

theorem splitOnChar_append (c : Char) (a b : List Char) (h : c ∉ a) :
    splitOnChar c (a ++ c :: b) = a :: splitOnChar c b := by
  induction a with
  | nil =>
    rw [List.nil_append, splitOnChar, if_pos rfl]
  | cons x xs ih =>
    have hx : x ≠ c := fun e => h (by rw [e]; exact List.mem_cons_self c xs)
    have hxs : c ∉ xs := fun m => h (List.mem_cons_of_mem x m)
    rw [List.cons_append, splitOnChar, if_neg hx, ih hxs]

theorem isDigitsL_mem (l : List Char) (h : isDigitsL l = true) :
    ∀ x ∈ l, x.isDigit = true := by
  simp only [isDigitsL, Bool.and_eq_true] at h
  exact List.all_eq_true.mp h.2

theorem portTok_no_colon (l : List Char) (hp : isPortTok l = true) : ':' ∉ l := by
  intro hm
  cases l with
  | nil => simp at hm
  | cons c rest =>
    by_cases hc : c = '-'
    · simp only [isPortTok, if_pos hc] at hp
      rcases List.mem_cons.mp hm with he | hm2
      · rw [← he] at hc
        exact absurd hc (by decide)
      · exact absurd (isDigitsL_mem rest hp ':' hm2) (by decide)
    · simp only [isPortTok, if_neg hc] at hp
      exact absurd (isDigitsL_mem _ hp ':' hm) (by decide)

theorem portTok_head (l : List Char) (hp : isPortTok l = true) :
    ∃ c rest, l = c :: rest ∧ (c = '-' ∨ c.isDigit = true) := by
  cases l with
  | nil => simp [isPortTok] at hp
  | cons c rest =>
    by_cases hc : c = '-'
    · exact ⟨c, rest, rfl, Or.inl hc⟩
    · refine ⟨c, rest, rfl, Or.inr ?_⟩
      simp only [isPortTok, if_neg hc] at hp
      exact isDigitsL_mem _ hp c (List.mem_cons_self c rest)

theorem portTok_not_scheme (l : List Char) (hp : isPortTok l = true) :
    starts l httpMark = false ∧ starts l httpsMark = false := by
  obtain ⟨c, rest, rfl, hc⟩ := portTok_head l hp
  have hch : (c == 'h') = false := by
    rcases hc with rfl | hd
    · decide
    · refine beq_eq_false_iff_ne.mpr fun e => ?_
      rw [e] at hd
      exact absurd hd (by decide)
  constructor
  · rw [httpMark]
    rw [starts, hch]
    rfl
  · rw [httpsMark]
    rw [starts, hch]
    rfl

theorem starts_https_not_http (b : List Char) :
    starts (httpsMark ++ b) httpMark = false := by
  have h1 : ('s' == ':') = false := by decide
  simp [httpsMark, httpMark, starts, h1]

theorem stripSchemeL_http (b : List Char) : stripSchemeL (httpMark ++ b) = b := by
  have h1 : starts (httpMark ++ b) httpMark = true := (starts_iff_append _ _).mpr ⟨b, rfl⟩
  rw [stripSchemeL, if_pos h1]
  exact List.drop_left _ _

theorem stripSchemeL_https (b : List Char) : stripSchemeL (httpsMark ++ b) = b := by
  have h0 : starts (httpsMark ++ b) httpMark = false := starts_https_not_http b
  have h1 : starts (httpsMark ++ b) httpsMark = true := (starts_iff_append _ _).mpr ⟨b, rfl⟩
  rw [stripSchemeL, if_neg (by rw [h0]; simp), if_pos h1]
  exact List.drop_left _ _

theorem stripSchemeL_plain (l : List Char) (h1 : starts l httpMark = false)
    (h2 : starts l httpsMark = false) : stripSchemeL l = l := by
  rw [stripSchemeL, if_neg (by rw [h1]; simp), if_neg (by rw [h2]; simp)]

theorem host_colon_not_http (h p : List Char) (hc : ':' ∉ h) (hp : isPortTok p = true) :
    starts (h ++ ':' :: p) httpMark = false := by
  cases hb : starts (h ++ ':' :: p) httpMark with
  | false => rfl
  | true =>
    exfalso
    obtain ⟨t, ht⟩ := (starts_iff_append _ _).mp hb
    simp only [httpMark, List.cons_append, List.nil_append] at ht
    rcases h with _ | ⟨c0, _ | ⟨c1, _ | ⟨c2, _ | ⟨c3, _ | ⟨c4, h5⟩⟩⟩⟩⟩
    · rw [List.nil_append] at ht
      injection ht with e0 ht
      exact absurd e0 (by decide)
    · simp only [List.cons_append, List.nil_append] at ht
      injection ht with e0 ht
      injection ht with e1 ht
      exact absurd e1 (by decide)
    · simp only [List.cons_append, List.nil_append] at ht
      injection ht with e0 ht
      injection ht with e1 ht
      injection ht with e2 ht
      exact absurd e2 (by decide)
    · simp only [List.cons_append, List.nil_append] at ht
      injection ht with e0 ht
      injection ht with e1 ht
      injection ht with e2 ht
      injection ht with e3 ht
      exact absurd e3 (by decide)
    · simp only [List.cons_append, List.nil_append] at ht
      injection ht with e0 ht
      injection ht with e1 ht
      injection ht with e2 ht
      injection ht with e3 ht
      injection ht with e4 ht
      have hd1 : ('/' : Char) ≠ '-' := by decide
      have hd2 : ('/' : Char).isDigit = false := by decide
      rw [ht] at hp
      simp [isPortTok, hd1, hd2, isDigitsL] at hp
    · simp only [List.cons_append, List.nil_append] at ht
      injection ht with e0 ht
      injection ht with e1 ht
      injection ht with e2 ht
      injection ht with e3 ht
      injection ht with e4 ht
      subst e4
      exact hc (by simp)

theorem host_colon_not_https (h p : List Char) (hc : ':' ∉ h) (hp : isPortTok p = true) :
    starts (h ++ ':' :: p) httpsMark = false := by
  cases hb : starts (h ++ ':' :: p) httpsMark with
  | false => rfl
  | true =>
    exfalso
    obtain ⟨t, ht⟩ := (starts_iff_append _ _).mp hb
    simp only [httpsMark, List.cons_append, List.nil_append] at ht
    rcases h with _ | ⟨c0, _ | ⟨c1, _ | ⟨c2, _ | ⟨c3, _ | ⟨c4, _ | ⟨c5, h6⟩⟩⟩⟩⟩⟩
    · rw [List.nil_append] at ht
      injection ht with e0 ht
      exact absurd e0 (by decide)
    · simp only [List.cons_append, List.nil_append] at ht
      injection ht with e0 ht
      injection ht with e1 ht
      exact absurd e1 (by decide)
    · simp only [List.cons_append, List.nil_append] at ht
      injection ht with e0 ht
      injection ht with e1 ht
      injection ht with e2 ht
      exact absurd e2 (by decide)
    · simp only [List.cons_append, List.nil_append] at ht
      injection ht with e0 ht
      injection ht with e1 ht
      injection ht with e2 ht
      injection ht with e3 ht
      exact absurd e3 (by decide)
    · simp only [List.cons_append, List.nil_append] at ht
      injection ht with e0 ht
      injection ht with e1 ht
      injection ht with e2 ht
      injection ht with e3 ht
      injection ht with e4 ht
      exact absurd e4 (by decide)
    · simp only [List.cons_append, List.nil_append] at ht
      injection ht with e0 ht
      injection ht with e1 ht
      injection ht with e2 ht
      injection ht with e3 ht
      injection ht with e4 ht
      injection ht with e5 ht
      have hd1 : ('/' : Char) ≠ '-' := by decide
      have hd2 : ('/' : Char).isDigit = false := by decide
      rw [ht] at hp
      simp [isPortTok, hd1, hd2, isDigitsL] at hp
    · simp only [List.cons_append, List.nil_append] at ht
      injection ht with e0 ht
      injection ht with e1 ht
      injection ht with e2 ht
      injection ht with e3 ht
      injection ht with e4 ht
      injection ht with e5 ht
      subst e5
      exact hc (by simp)

/-- Soundness: on any string admitting a grammar decomposition, the parse
result is determined by the port value: in-range ports succeed with the
decomposed host (defaulting to localhost) and out-of-range ports give the
range error. -/
theorem parse_of_shape (s : String) (hp : Option String) (ps : String)
    (h : CliUrlShape s hp ps) :
    parseCliUrl s =
      (if 1 ≤ portVal ps.data ∧ portVal ps.data ≤ 65535 then
        Except.ok ⟨hostOf hp, (portVal ps.data).toNat⟩
      else Except.error CliUrlError.portRangeErr) := by
  obtain ⟨⟨sch, hsch, heq⟩, hhost, hport⟩ := h
  rcases hp with _ | hh
  · have hrest : stripSchemeL s.data = ps.data := by
      rcases hsch with rfl | rfl | rfl
      · rw [show ("" : String).data = [] from rfl, List.nil_append] at heq
        rw [heq]
        exact stripSchemeL_plain _ (portTok_not_scheme _ hport).1
          (portTok_not_scheme _ hport).2
      · rw [show ("http://" : String).data = httpMark by decide] at heq
        rw [heq]
        exact stripSchemeL_http _
      · rw [show ("https://" : String).data = httpsMark by decide] at heq
        rw [heq]
        exact stripSchemeL_https _
    have hnc : ':' ∉ ps.data := portTok_no_colon _ hport
    simp only [parseCliUrl, hrest, splitOnChar_no ':' ps.data hnc, hport, if_true]
    rfl
  · obtain ⟨hhne, hhnc⟩ := hhost hh rfl
    have hrest : stripSchemeL s.data = hh.data ++ ':' :: ps.data := by
      rcases hsch with rfl | rfl | rfl
      · rw [show ("" : String).data = [] from rfl, List.nil_append] at heq
        rw [heq]
        exact stripSchemeL_plain _ (host_colon_not_http _ _ hhnc hport)
          (host_colon_not_https _ _ hhnc hport)
      · rw [show ("http://" : String).data = httpMark by decide] at heq
        rw [heq]
        exact stripSchemeL_http _
      · rw [show ("https://" : String).data = httpsMark by decide] at heq
        rw [heq]
        exact stripSchemeL_https _
    have hsplit : splitOnChar ':' (hh.data ++ ':' :: ps.data) = [hh.data, ps.data] := by
      rw [splitOnChar_append ':' hh.data ps.data hhnc,
        splitOnChar_no ':' ps.data (portTok_no_colon _ hport)]
    simp only [parseCliUrl, hrest, hsplit]
    rw [if_pos ⟨hhne, hport⟩]
    rfl

/-- Completeness: whenever the parse does not fail with the format error,
the input admits a grammar decomposition. -/
theorem shape_of_parse (s : String) (h : parseCliUrl s ≠ .error .formatErr) :
    ∃ hp ps, CliUrlShape s hp ps := by
  have hscheme : ∃ sch : String, (sch = "" ∨ sch = "http://" ∨ sch = "https://") ∧
      s.data = sch.data ++ stripSchemeL s.data := by
    by_cases h1 : starts s.data httpMark = true
    · obtain ⟨t, ht⟩ := (starts_iff_append _ _).mp h1
      refine ⟨"http://", Or.inr (Or.inl rfl), ?_⟩
      have hd : stripSchemeL s.data = t := by rw [ht]; exact stripSchemeL_http t
      rw [show ("http://" : String).data = httpMark by decide, hd]
      exact ht
    · by_cases h2 : starts s.data httpsMark = true
      · obtain ⟨t, ht⟩ := (starts_iff_append _ _).mp h2
        refine ⟨"https://", Or.inr (Or.inr rfl), ?_⟩
        have hd : stripSchemeL s.data = t := by rw [ht]; exact stripSchemeL_https t
        rw [show ("https://" : String).data = httpsMark by decide, hd]
        exact ht
      · refine ⟨"", Or.inl rfl, ?_⟩
        have h1' : starts s.data httpMark = false := Bool.eq_false_iff.mpr h1
        have h2' : starts s.data httpsMark = false := Bool.eq_false_iff.mpr h2
        rw [show ("" : String).data = [] from rfl, List.nil_append,
          stripSchemeL_plain _ h1' h2']
  obtain ⟨sch, hsch, heq⟩ := hscheme
  set rest := stripSchemeL s.data with hrest
  cases hsp : splitOnChar ':' rest with
  | nil => exact absurd hsp (splitOnChar_ne_nil ':' rest)
  | cons a tail =>
    cases tail with
    | nil =>
      obtain ⟨hla, hnca⟩ := splitOnChar_single ':' rest a hsp
      have hpt : isPortTok a = true := by
        by_contra hnp
        refine h ?_
        simp only [parseCliUrl, ← hrest, hsp]
        rw [if_neg hnp]
      refine ⟨none, String.mk a, ⟨sch, hsch, ?_⟩, ?_, hpt⟩
      · show s.data = sch.data ++ a
        rw [heq, hla]
      · intro hh he
        exact absurd he (by simp)
    | cons b tail2 =>
      cases tail2 with
      | nil =>
        obtain ⟨hlab, hnca, hncb⟩ := splitOnChar_pair ':' rest a b hsp
        have hcond : a ≠ [] ∧ isPortTok b = true := by
          by_contra hnp
          refine h ?_
          simp only [parseCliUrl, ← hrest, hsp]
          rw [if_neg hnp]
        refine ⟨some (String.mk a), String.mk b, ⟨sch, hsch, ?_⟩, ?_, hcond.2⟩
        · show s.data = sch.data ++ (a ++ ':' :: b)
          rw [heq, hlab]
        · intro hh he
          injection he with he2
          subst he2
          exact ⟨hcond.1, hnca⟩
      | cons d tail3 =>
        exfalso
        refine h ?_
        simp only [parseCliUrl, ← hrest, hsp]

/-- Claim C3: for every endpoint string that decomposes under the grammar
[http(s)://][host:]port with the port value in 1..65535, `parseCliUrl`
returns the host/port pair with the scheme stripped and the host
defaulting to localhost when omitted; for every string admitting no
grammar decomposition it fails with the format error; and for every string
decomposing with a port value outside 1..65535 (zero, negative or above
65535) it fails with the distinct range error. -/
theorem parseCliUrl_grammar (s : String) :
    (∀ (hp : Option String) (ps : String), CliUrlShape s hp ps →
      1 ≤ portVal ps.data → portVal ps.data ≤ 65535 →
      parseCliUrl s = .ok ⟨hostOf hp, (portVal ps.data).toNat⟩)
    ∧ (∀ (hp : Option String) (ps : String), CliUrlShape s hp ps →
      ¬(1 ≤ portVal ps.data ∧ portVal ps.data ≤ 65535) →
      parseCliUrl s = .error .portRangeErr)
    ∧ ((¬ ∃ hp ps, CliUrlShape s hp ps) → parseCliUrl s = .error .formatErr) := by
  refine ⟨?_, ?_, ?_⟩
  · intro hp ps h h1 h2
    rw [parse_of_shape s hp ps h, if_pos ⟨h1, h2⟩]
  · intro hp ps h hn
    rw [parse_of_shape s hp ps h, if_neg hn]
  · intro hn
    by_contra hne
    exact hn (shape_of_parse s hne)

theorem parseCliUrl_grammar_witness :
    parseCliUrl "localhost:8080" = .ok ⟨"localhost", 8080⟩
    ∧ parseCliUrl "http://myhost:3000" = .ok ⟨"myhost", 3000⟩
    ∧ parseCliUrl "8080" = .ok ⟨"localhost", 8080⟩
    ∧ parseCliUrl "localhost:0" = .error .portRangeErr
    ∧ parseCliUrl "localhost:-1" = .error .portRangeErr
    ∧ parseCliUrl "localhost:99999" = .error .portRangeErr
    ∧ parseCliUrl "invalid-url" = .error .formatErr := by
  have sh1 : CliUrlShape "localhost:8080" (some "localhost") "8080" := by
    refine ⟨⟨"", Or.inl rfl, by decide⟩, ?_, by decide⟩
    intro hh he
    cases he
    exact ⟨by decide, by decide⟩
  have sh2 : CliUrlShape "http://myhost:3000" (some "myhost") "3000" := by
    refine ⟨⟨"http://", Or.inr (Or.inl rfl), by decide⟩, ?_, by decide⟩
    intro hh he
    cases he
    exact ⟨by decide, by decide⟩
  have sh3 : CliUrlShape "8080" none "8080" := by
    refine ⟨⟨"", Or.inl rfl, by decide⟩, ?_, by decide⟩
    intro hh he
    cases he
  have sh4 : CliUrlShape "localhost:0" (some "localhost") "0" := by
    refine ⟨⟨"", Or.inl rfl, by decide⟩, ?_, by decide⟩
    intro hh he
    cases he
    exact ⟨by decide, by decide⟩
  have sh5 : CliUrlShape "localhost:-1" (some "localhost") "-1" := by
    refine ⟨⟨"", Or.inl rfl, by decide⟩, ?_, by decide⟩
    intro hh he
    cases he
    exact ⟨by decide, by decide⟩
  have sh6 : CliUrlShape "localhost:99999" (some "localhost") "99999" := by
    refine ⟨⟨"", Or.inl rfl, by decide⟩, ?_, by decide⟩
    intro hh he
    cases he
    exact ⟨by decide, by decide⟩
  refine ⟨?_, ?_, ?_, ?_, ?_, ?_, ?_⟩
  · exact (parseCliUrl_grammar "localhost:8080").1 (some "localhost") "8080" sh1
      (by decide) (by decide)
  · exact (parseCliUrl_grammar "http://myhost:3000").1 (some "myhost") "3000" sh2
      (by decide) (by decide)
  · exact (parseCliUrl_grammar "8080").1 none "8080" sh3 (by decide) (by decide)
  · exact (parseCliUrl_grammar "localhost:0").2.1 (some "localhost") "0" sh4 (by decide)
  · exact (parseCliUrl_grammar "localhost:-1").2.1 (some "localhost") "-1" sh5 (by decide)
  · exact (parseCliUrl_grammar "localhost:99999").2.1 (some "localhost") "99999" sh6
      (by decide)
  · refine (parseCliUrl_grammar "invalid-url").2.2 ?_
    rintro ⟨hp, ps, ⟨sch, hsch, heq⟩, hhost, hport⟩
    rcases hsch with rfl | rfl | rfl
    · rw [show ("" : String).data = [] from rfl, List.nil_append] at heq
      rcases hp with _ | hh
      · have heq' : ("invalid-url" : String).data = ps.data := heq
        rw [← heq'] at hport
        exact absurd hport (by decide)
      · have heq' : ("invalid-url" : String).data = hh.data ++ ':' :: ps.data := heq
        have hmem : ':' ∈ ("invalid-url" : String).data := by
          rw [heq']
          exact List.mem_append_right _ (List.mem_cons_self _ _)
        exact absurd hmem (by decide)
    · have hst : starts ("invalid-url" : String).data httpMark = true := by
        rw [show ("http://" : String).data = httpMark by decide] at heq
        exact (starts_iff_append _ _).mpr ⟨_, heq⟩
      exact absurd hst (by decide)
    · have hst : starts ("invalid-url" : String).data httpsMark = true := by
        rw [show ("https://" : String).data = httpsMark by decide] at heq
        exact (starts_iff_append _ _).mpr ⟨_, heq⟩
      exact absurd hst (by decide)
